import Mathlib

/-!
Verification development for the TabSnap fretboard-mapping core
(`src/TabSnap.jsx`): candidate generation, chord optimization by bounded
beam search, sequence mapping, and ASCII tab rendering.

Modelling conventions.

* JavaScript numbers holding MIDI pitches, string indices and frets are
  integers in the source; they are modelled as `ℤ`.
* Every cost term in the source is an exact multiple of `1/20`
  (`0.05 = 1/20`, `0.1 = 2/20`, `0.2 = 4/20`, `0.3 = 6/20`,
  `0.5 · k = 10k/20` for integer `k`).  Costs are therefore carried as the
  integer numerator over the fixed denominator 20 (`BeamState.cost`,
  `singleCost`); `BeamState.costQ` and `chordAssignCostQ` recover the
  rational value.  Order and equality of costs are preserved exactly, so
  every comparison made by the source is modelled faithfully under the
  exact-rational reading of its numeric literals.
* `optimizeChord`'s single-note path starts from `candidateSets[0][0]`,
  which is `undefined` for an empty candidate list; result lists therefore
  have type `List (Option Position)` (`none` = `undefined`).  When a
  previous position is `undefined`, the source itself throws a `TypeError`
  at `lp.fret` before `Math.min` runs, so the mapper crashes on such
  inputs; the model marks that movement term with `none : Option ℤ`, a
  value `jsLt` never accepts.  This collapse of the throwing path into a
  marker is never exercised by the theorems below: each of them quantifies
  only over inputs on which the branch is unreachable (defined previous
  positions, empty previous positions, or the chord path, which never
  reads them).
* `Array.prototype.sort` with comparator `(a, b) => a.cost - b.cost` is a
  stable sort by cost (ES2019); it is modelled by the stable insertion
  sort `sortByCost`.
* The renderer's outer loop advances a chunk index by 8; it is modelled
  with a fuel parameter bounded by the list length (`renderLinesGo`).
-/

/-- A fretboard position: `{ string, fret }` in the source. -/
structure Position where
  string : ℤ
  fret : ℤ
deriving DecidableEq, Repr

/-- `TUNINGS.standard.notes = [64, 59, 55, 50, 45, 40]`. -/
def standardNotes : List ℤ := [64, 59, 55, 50, 45, 40]

/-- `TUNINGS.dropD.notes = [64, 59, 55, 50, 45, 38]`. -/
def dropDNotes : List ℤ := [64, 59, 55, 50, 45, 38]

/-- `TUNINGS.halfDown.notes = [63, 58, 54, 49, 44, 39]`. -/
def halfDownNotes : List ℤ := [63, 58, 54, 49, 44, 39]

/-- `getCandidates(midiNote, tuning, maxFret = 22)`: for each string
`s = 0..5` compute `fret = midiNote - open[s]` and keep the pair when
`0 ≤ fret ≤ maxFret`.  The tuning lookup `TUNINGS[tuning].notes` is
modelled by passing the 6-element note list itself; `getD` is only ever
used in range. -/
def getCandidates (midiNote : ℤ) (openNotes : List ℤ) (maxFret : ℤ) : List Position :=
  (List.range 6).filterMap fun s =>
    let fret := midiNote - openNotes.getD s 0
    if 0 ≤ fret ∧ fret ≤ maxFret then some ⟨(s : ℤ), fret⟩ else none

/-- `Math.abs(lp.fret - c.fret) + Math.abs(lp.string - c.string) * 2` for one
previous position.  On an `undefined` entry the source throws a
`TypeError` at `lp.fret` (the mapper crashes there); the model returns the
marker `none` instead.  Every theorem below quantifies only over inputs on
which this branch is unreachable. -/
def moveTerm (c : Position) : Option Position → Option ℤ
  | some lp => some (|lp.fret - c.fret| + |lp.string - c.string| * 2)
  | none => none

/-- Binary `Math.min` lifted to the marker: a `none` operand (the throwing
branch) propagates. -/
def jsMin2 : Option ℤ → Option ℤ → Option ℤ
  | some a, some b => some (min a b)
  | _, _ => none

/-- `Math.min(...xs)` over a non-empty argument list (the empty case is
unreachable behind the `lastPositions.length > 0` guard). -/
def jsMinL : List (Option ℤ) → Option ℤ
  | [] => none
  | x :: xs => xs.foldl jsMin2 x

/-- Single-note cost of a candidate, scaled by 20:
`fret * 0.1` is `fret * 2`, the movement term `min(...) * 0.5` is
`min(...) * 10`, and the open-string bonus `0.3` is `6`.
`none` marks the path on which the source throws (an `undefined` previous
position); it never arises in the theorems below. -/
def singleCost (lastPositions : List (Option Position)) (c : Position) : Option ℤ :=
  let base : Option ℤ := some (c.fret * 2)
  let withMove : Option ℤ :=
    if 0 < lastPositions.length then
      match base, jsMinL (lastPositions.map (moveTerm c)) with
      | some b, some m => some (b + m * 10)
      | _, _ => none
    else base
  withMove.map fun v => if c.fret = 0 then v - 6 else v

/-- `cost < bestCost` where `bestCost` is `Infinity` (`none`) until first
assigned and any real value is `< Infinity`.  A `none` cost (the marker of
the throwing branch, unreachable in the theorems below) is never
accepted. -/
def jsLt : Option ℤ → Option (Option ℤ) → Bool
  | none, _ => false
  | some _, none => true
  | some _, some none => false
  | some x, some (some y) => decide (x < y)

/-- The single-note selection loop of `optimizeChord`: `best` starts at
`candidateSets[0][0]` (possibly `undefined`), `bestCost` at `Infinity`,
and a candidate replaces `best` exactly when its cost is strictly
smaller. -/
def optimizeSingle (cs : List Position) (lastPositions : List (Option Position)) :
    Option Position :=
  (cs.foldl
    (fun acc c =>
      let cost := singleCost lastPositions c
      if jsLt cost acc.2 then (some c, some cost) else acc)
    ((cs.head?, none) : Option Position × Option (Option ℤ))).1

/-- A beam-search state: chosen positions, accumulated cost (scaled by 20),
and the used string indices.  The JavaScript `Set` is modelled as the list
of its elements in insertion order (only membership is consulted, and an
element is only added when absent). -/
structure BeamState where
  positions : List Position
  cost : ℤ
  used : List ℤ
deriving DecidableEq, Repr

/-- Rational value of a state's accumulated cost. -/
def BeamState.costQ (st : BeamState) : ℚ := (st.cost : ℚ) / 20

/-- `frets.length > 0 ? Math.max(...frets) - Math.min(...frets) : 0`. -/
def spanOf (frets : List ℤ) : ℤ :=
  match frets with
  | [] => 0
  | f :: fs => fs.foldl max f - fs.foldl min f

/-- The chord span of an assignment: `max(fret) − min(fret)` over the
non-zero frets (0 when there are none). -/
def chordSpan (ps : List Position) : ℤ :=
  spanOf ((ps.map Position.fret).filter fun f => decide (0 < f))

/-- The span consulted by one beam expansion:
`[...state.positions.map(p => p.fret), c.fret].filter(f => f > 0)` fed to
the max-minus-min computation. -/
def stepSpan (st : BeamState) (c : Position) : ℤ :=
  spanOf (((st.positions.map Position.fret) ++ [c.fret]).filter fun f => decide (0 < f))

/-- One loop body of the beam expansion: skip a candidate whose string is
already used, compute the span over the non-zero frets chosen so far, drop
the branch when it exceeds 5, otherwise extend the state.  Scaled costs:
`fret * 0.05` is `fret`, `span * 0.3` is `span * 6`, the open-string bonus
`0.2` is `4`. -/
def expandState (st : BeamState) (c : Position) : Option BeamState :=
  if c.string ∈ st.used then none
  else if 5 < stepSpan st c then none
  else
    some ⟨st.positions ++ [c],
      (if c.fret = 0 then st.cost + c.fret + stepSpan st c * 6 - 4
       else st.cost + c.fret + stepSpan st c * 6),
      st.used ++ [c.string]⟩

/-- Stable insertion of a state into a cost-sorted list (a state goes in
front of the first strictly costlier one, after all equal-cost ones). -/
def insertByCost (a : BeamState) : List BeamState → List BeamState
  | [] => [a]
  | b :: l => if a.cost ≤ b.cost then a :: b :: l else b :: insertByCost a l

/-- Stable sort by ascending cost, modelling
`next.sort((a, b) => a.cost - b.cost)`. -/
def sortByCost : List BeamState → List BeamState
  | [] => []
  | a :: l => insertByCost a (sortByCost l)

/-- One pitch of the beam search: expand every surviving state with every
usable candidate, sort by ascending total cost, keep the 20 lowest. -/
def stepBeam (beam : List BeamState) (candidates : List Position) : List BeamState :=
  (sortByCost (beam.flatMap fun st => candidates.filterMap (expandState st))).take 20

/-- `[{ positions: [], cost: 0, used: new Set() }]`. -/
def initBeam : List BeamState := [⟨[], 0, []⟩]

/-- The chord path's beam loop over the per-pitch candidate sets, in input
order. -/
def runBeam (candidateSets : List (List Position)) : List BeamState :=
  candidateSets.foldl stepBeam initBeam

/-- `optimizeChord(candidateSets, lastPositions)`.  Result entries are
`Option Position` because the single-note path returns
`[candidateSets[0][0]]`, which is `[undefined]` for an empty candidate
set; the chord fallback `candidateSets.map(cs => cs[0]).filter(Boolean)`
keeps exactly the defined first candidates. -/
def optimizeChord (candidateSets : List (List Position))
    (lastPositions : List (Option Position)) : List (Option Position) :=
  match candidateSets with
  | [] => []
  | [cs] => [optimizeSingle cs lastPositions]
  | _ :: _ :: _ =>
    match runBeam candidateSets with
    | st :: _ => st.positions.map some
    | [] => (candidateSets.map List.head?).filter fun o => o.isSome

/-- A note event `{ time, duration, notes, chord }`.  The source wraps a
scalar `notes` field into a one-element array (`Array.isArray(ev.notes) ?
ev.notes : [ev.notes]`), so `notes` is modelled as the wrapped list; a
missing `chord` is `none`. -/
structure NoteEvent where
  time : ℚ
  duration : ℚ
  notes : List ℤ
  chord : Option String
deriving DecidableEq, Repr

/-- A mapped event `{ time, duration, positions, chord }`. -/
structure MappedEvent where
  time : ℚ
  duration : ℚ
  positions : List (Option Position)
  chord : Option String
deriving DecidableEq, Repr

/-- `ev.chord || null`: a missing or empty-string (falsy) label becomes
`null`. -/
def jsOrNull : Option String → Option String
  | some s => if s = "" then none else some s
  | none => none

/-- The loop of `fretboardMap`: candidate sets for the event's pitches are
fed to `optimizeChord` together with the previous result, which then
becomes the state for the next event. -/
def fretboardMapGo (tuningNotes : List ℤ) :
    List NoteEvent → List (Option Position) → List MappedEvent
  | [], _ => []
  | ev :: rest, last =>
    let candidates := ev.notes.map fun n => getCandidates n tuningNotes 22
    let best := optimizeChord candidates last
    ⟨ev.time, ev.duration, best, jsOrNull ev.chord⟩ :: fretboardMapGo tuningNotes rest best

/-- `fretboardMap(events, tuning)` with `last` initialized to `[]`. -/
def fretboardMap (events : List NoteEvent) (tuningNotes : List ℤ) : List MappedEvent :=
  fretboardMapGo tuningNotes events []

/-- `STRING_LABELS = ["e", "B", "G", "D", "A", "E"]`. -/
def STRING_LABELS : List String := ["e", "B", "G", "D", "A", "E"]

/-- `s.padEnd(n, c)` (strings here are ASCII, so code units = characters). -/
def padEnd (s : String) (n : ℕ) (c : Char) : String :=
  s ++ String.mk (List.replicate (n - s.length) c)

/-- JavaScript truthiness of a string-or-null: `null` and `""` are falsy. -/
def jsTruthy : Option String → Bool
  | some s => decide (s ≠ "")
  | none => false

/-- `ev.positions.find(p => p.string === s)`.  Entries of a well-formed
mapped event are never `undefined` (on an `undefined` entry the JavaScript
predicate would throw), so the search runs over the defined entries. -/
def findPos (positions : List (Option Position)) (s : ℤ) : Option Position :=
  (positions.filterMap id).find? fun p => decide (p.string = s)

/-- One event's cell in a string row: a dash, then the decimal fret or a
dash placeholder, right-padded with dashes to width 5
(`"-" + f.padEnd(5, "-")`). -/
def renderCell (ev : MappedEvent) (s : ℤ) : String :=
  let f := match findPos ev.positions s with
    | some pos => toString pos.fret
    | none => "-"
  "-" ++ padEnd f 5 '-'

/-- One string row of a block: the string letter, a pipe, one cell per
event, and a closing pipe. -/
def renderRow (slice : List MappedEvent) (s : ℕ) : String :=
  STRING_LABELS.getD s "" ++ "|" ++ String.join (slice.map fun ev => renderCell ev (s : ℤ)) ++ "|"

/-- The label row of a block: four spaces, then each label (empty for an
unlabelled event) left-justified to 6 characters, in event order. -/
def labelRow (slice : List MappedEvent) : String :=
  "    " ++ String.join (slice.map fun e => padEnd (e.chord.getD "") 6 ' ')

/-- The lines of one block of up to 8 events: the label row exactly when
some event's label is truthy, then the 6 string rows, then a blank
line. -/
def renderBlockLines (slice : List MappedEvent) : List String :=
  (if slice.any (fun e => jsTruthy e.chord) then [labelRow slice] else [])
    ++ (List.range 6).map (renderRow slice) ++ [""]

/-- The chunking loop of `renderAsciiTab` (`for chunk += 8`), with a fuel
parameter: `fuel = tabEvents.length` always suffices since every round
consumes at least one event. -/
def renderLinesGo : ℕ → List MappedEvent → List String
  | _, [] => []
  | 0, _ :: _ => []
  | fuel + 1, e :: evs => renderBlockLines ((e :: evs).take 8) ++ renderLinesGo fuel ((e :: evs).drop 8)

/-- All lines produced by `renderAsciiTab` before the final join. -/
def renderLines (tabEvents : List MappedEvent) : List String :=
  renderLinesGo tabEvents.length tabEvents

/-- `renderAsciiTab(tabEvents)`: the lines joined with newlines. -/
def renderAsciiTab (tabEvents : List MappedEvent) : String :=
  String.intercalate "\n" (renderLines tabEvents)

/-- Minimum of a list of integers (0 on the empty list, which is never
consulted). -/
def listMinZ : List ℤ → ℤ
  | [] => 0
  | x :: xs => xs.foldl min x

/-- Minimum of a list of rationals (0 on the empty list, which is never
consulted). -/
def qListMin : List ℚ → ℚ
  | [] => 0
  | x :: xs => xs.foldl min x

/-- The single-note cost of a candidate written as the spec states it, as
an exact rational: `fret * 0.1`, plus `0.5 * min over prior positions of
(|Δfret| + 2*|Δstring|)` when prior positions exist, minus `0.3` when
`fret == 0`. -/
def specSingleCostQ (lps : List Position) (c : Position) : ℚ :=
  (c.fret : ℚ) * (1/10)
    + (if lps = [] then 0
       else (1/2) * qListMin (lps.map fun lp =>
         |(lp.fret : ℚ) - (c.fret : ℚ)| + 2 * |(lp.string : ℚ) - (c.string : ℚ)|))
    - (if c.fret = 0 then 3/10 else 0)

/-- The single-note cost scaled by 20 (the value `singleCost` computes when
every previous position is defined). -/
def scaledSingleCost (lps : List Position) (c : Position) : ℤ :=
  let base := c.fret * 2
  let withMove :=
    if 0 < lps.length then
      base + (listMinZ (lps.map fun lp => |lp.fret - c.fret| + |lp.string - c.string| * 2)) * 10
    else base
  if c.fret = 0 then withMove - 6 else withMove

/-- The accumulated chord-model cost of a complete assignment, scaled by
20: each prefix step contributes `fret * 0.05 + span * 0.3`, minus `0.2`
for an open string, with the span taken over the non-zero frets chosen so
far. -/
def chordCostGo (acc : List Position) (cost : ℤ) : List Position → ℤ
  | [] => cost
  | c :: rest =>
    let sp := chordSpan (acc ++ [c])
    let cost0 := cost + c.fret + sp * 6
    chordCostGo (acc ++ [c]) (if c.fret = 0 then cost0 - 4 else cost0) rest

/-- Total chord-model cost of an assignment, scaled by 20. -/
def chordAssignCost (ps : List Position) : ℤ := chordCostGo [] 0 ps

/-- Total chord-model cost of an assignment as an exact rational. -/
def chordAssignCostQ (ps : List Position) : ℚ := (chordAssignCost ps : ℚ) / 20

/-- `asg` assigns one candidate per pitch (in order), on pairwise-distinct
strings, with non-zero-fret span at most 5. -/
def isValidAssignment (asg : List Position) (css : List (List Position)) : Bool :=
  decide (asg.length = css.length)
    && (asg.zip css).all (fun pc => pc.2.contains pc.1)
    && decide ((asg.map Position.string).Nodup)
    && decide (chordSpan asg ≤ 5)

/-- Invariant of beam states reached after `k` expansion rounds whose
candidates were all drawn from sets of `css`. -/
def stateOK (css : List (List Position)) (k : ℕ) (st : BeamState) : Prop :=
  st.used = st.positions.map Position.string ∧ st.used.Nodup ∧
    st.positions.length = k ∧ ∀ p ∈ st.positions, ∃ cs ∈ css, p ∈ cs

/-- The body of the single-note selection loop, abstracted over the cost
function `g` (the fold in `optimizeSingle` is definitionally
`pickStep (singleCost lastPositions)`). -/
def pickStep (g : Position → Option ℤ) (acc : Option Position × Option (Option ℤ))
    (c : Position) : Option Position × Option (Option ℤ) :=
  if jsLt (g c) acc.2 then (some c, some (g c)) else acc

/-! ### Sorting and beam-membership lemmas -/

theorem insertByCost_perm (a : BeamState) (l : List BeamState) :
    (insertByCost a l).Perm (a :: l) := by
  induction l with
  | nil => exact List.Perm.refl _
  | cons b t ih =>
    simp only [insertByCost]
    split
    · exact List.Perm.refl _
    · exact (ih.cons b).trans (List.Perm.swap a b t)

theorem mem_insertByCost {a x : BeamState} {l : List BeamState} :
    x ∈ insertByCost a l ↔ x = a ∨ x ∈ l := by
  rw [(insertByCost_perm a l).mem_iff, List.mem_cons]

theorem insertByCost_sorted {a : BeamState} {l : List BeamState}
    (h : l.Pairwise fun x y => x.cost ≤ y.cost) :
    (insertByCost a l).Pairwise fun x y => x.cost ≤ y.cost := by
  induction l with
  | nil => simp [insertByCost]
  | cons b t ih =>
    rw [List.pairwise_cons] at h
    simp only [insertByCost]
    split
    · rename_i hab
      refine List.pairwise_cons.mpr ⟨?_, List.pairwise_cons.mpr ⟨h.1, h.2⟩⟩
      intro y hy
      rcases List.mem_cons.mp hy with rfl | hy
      · exact hab
      · exact le_trans hab (h.1 y hy)
    · rename_i hab
      push_neg at hab
      refine List.pairwise_cons.mpr ⟨?_, ih h.2⟩
      intro y hy
      rcases mem_insertByCost.mp hy with rfl | hy
      · exact le_of_lt hab
      · exact h.1 y hy

theorem sortByCost_perm (l : List BeamState) : (sortByCost l).Perm l := by
  induction l with
  | nil => exact List.Perm.refl _
  | cons a t ih => exact (insertByCost_perm a (sortByCost t)).trans (ih.cons a)

theorem sortByCost_sorted (l : List BeamState) :
    (sortByCost l).Pairwise fun x y => x.cost ≤ y.cost := by
  induction l with
  | nil => simp [sortByCost]
  | cons a t ih => exact insertByCost_sorted ih

theorem stepBeam_sorted (beam : List BeamState) (cands : List Position) :
    (stepBeam beam cands).Pairwise fun x y => x.cost ≤ y.cost :=
  List.Pairwise.sublist (List.take_sublist _ _) (sortByCost_sorted _)

theorem stepBeam_length_le (beam : List BeamState) (cands : List Position) :
    (stepBeam beam cands).length ≤ 20 := by
  simp only [stepBeam]
  exact List.length_take_le 20 _

theorem mem_stepBeam {beam : List BeamState} {cands : List Position} {st' : BeamState}
    (h : st' ∈ stepBeam beam cands) :
    ∃ st ∈ beam, ∃ c ∈ cands, expandState st c = some st' := by
  have h1 : st' ∈ sortByCost (beam.flatMap fun st => cands.filterMap (expandState st)) :=
    List.mem_of_mem_take h
  have h2 := (sortByCost_perm _).mem_iff.mp h1
  rw [List.mem_flatMap] at h2
  obtain ⟨st, hst, hmem⟩ := h2
  rw [List.mem_filterMap] at hmem
  obtain ⟨c, hc, he⟩ := hmem
  exact ⟨st, hst, c, hc, he⟩

theorem expandState_some {st : BeamState} {c : Position} {st' : BeamState}
    (h : expandState st c = some st') :
    c.string ∉ st.used ∧ st'.positions = st.positions ++ [c]
      ∧ st'.used = st.used ++ [c.string] ∧ stepSpan st c ≤ 5
      ∧ st'.cost = (if c.fret = 0 then st.cost + c.fret + stepSpan st c * 6 - 4
          else st.cost + c.fret + stepSpan st c * 6) := by
  unfold expandState at h
  by_cases h1 : c.string ∈ st.used
  · rw [if_pos h1] at h
    exact Option.noConfusion h
  rw [if_neg h1] at h
  by_cases h2 : 5 < stepSpan st c
  · rw [if_pos h2] at h
    exact Option.noConfusion h
  rw [if_neg h2] at h
  rw [Option.some.injEq] at h
  subst h
  exact ⟨h1, rfl, rfl, by omega, rfl⟩

theorem expandState_none {st : BeamState} {c : Position} :
    expandState st c = none ↔ c.string ∈ st.used ∨ 5 < stepSpan st c := by
  unfold expandState
  split_ifs with h1 h2
  · simp [h1]
  · simp [h2]
  · simp [h1, h2]

/-! ### The beam-state invariant -/

theorem stateOK_expand {css : List (List Position)} {k : ℕ} {st : BeamState} {c : Position}
    {st' : BeamState} (hok : stateOK css k st) (hc : ∃ cs ∈ css, c ∈ cs)
    (h : expandState st c = some st') : stateOK css (k + 1) st' := by
  obtain ⟨hnm, hpos, hused, -, -⟩ := expandState_some h
  obtain ⟨h1, h2, h3, h4⟩ := hok
  refine ⟨?_, ?_, ?_, ?_⟩
  · rw [hused, hpos, h1, List.map_append]
    rfl
  · rw [hused, List.nodup_append]
    refine ⟨h2, List.nodup_singleton _, ?_⟩
    intro x hx hx'
    rw [List.mem_singleton] at hx'
    subst hx'
    exact hnm hx
  · rw [hpos, List.length_append, h3]
    rfl
  · intro p hp
    rw [hpos] at hp
    rcases List.mem_append.mp hp with hp | hp
    · exact h4 p hp
    · rw [List.mem_singleton] at hp
      subst hp
      exact hc

theorem foldl_stepBeam_ok (css : List (List Position)) :
    ∀ (l : List (List Position)), (∀ cs ∈ l, cs ∈ css) →
      ∀ (beam : List BeamState) (k : ℕ), (∀ st ∈ beam, stateOK css k st) →
        ∀ st' ∈ l.foldl stepBeam beam, stateOK css (k + l.length) st' := by
  intro l
  induction l with
  | nil =>
    intro _ beam k hb st' h'
    exact hb st' h'
  | cons cands t ih =>
    intro hsub beam k hb st' h'
    rw [List.foldl_cons] at h'
    have hnext : ∀ st ∈ stepBeam beam cands, stateOK css (k + 1) st := by
      intro st hst
      obtain ⟨st0, hst0, c, hc, he⟩ := mem_stepBeam hst
      exact stateOK_expand (hb st0 hst0) ⟨cands, hsub cands (List.mem_cons_self _ _), hc⟩ he
    have hres := ih (fun cs h => hsub cs (List.mem_cons_of_mem _ h)) (stepBeam beam cands)
      (k + 1) hnext st' h'
    have hk : k + 1 + t.length = k + (cands :: t).length := by
      simp only [List.length_cons]
      omega
    rw [← hk]
    exact hres

theorem runBeam_ok (css : List (List Position)) :
    ∀ st ∈ runBeam css, stateOK css css.length st := by
  intro st h
  have h0 : ∀ s ∈ initBeam, stateOK css 0 s := by
    intro s hs
    simp only [initBeam, List.mem_singleton] at hs
    subst hs
    exact ⟨rfl, List.nodup_nil, rfl, by simp⟩
  simpa using foldl_stepBeam_ok css css (fun _ h => h) initBeam 0 h0 st h

theorem mem_getCandidates {c : Position} {p : ℤ} {t : List ℤ} {mf : ℤ}
    (h : c ∈ getCandidates p t mf) :
    ∃ s : ℕ, s < 6 ∧ c.string = (s : ℤ) ∧ c.fret = p - t.getD s 0
      ∧ 0 ≤ c.fret ∧ c.fret ≤ mf := by
  unfold getCandidates at h
  rw [List.mem_filterMap] at h
  obtain ⟨s, hs, he⟩ := h
  rw [List.mem_range] at hs
  dsimp only at he
  split_ifs at he with hcond
  rw [Option.some.injEq] at he
  subst he
  exact ⟨s, hs, rfl, rfl, hcond.1, hcond.2⟩

theorem getCandidates_string_range {c : Position} {p : ℤ} {t : List ℤ} {mf : ℤ}
    (h : c ∈ getCandidates p t mf) : 0 ≤ c.string ∧ c.string < 6 := by
  obtain ⟨s, hs6, hstr, -⟩ := mem_getCandidates h
  refine ⟨?_, ?_⟩
  · rw [hstr]
    exact Int.natCast_nonneg s
  · rw [hstr]
    exact_mod_cast hs6

theorem runBeam_nil_of_length_eq_seven {css : List (List Position)} (h7 : css.length = 7)
    (hstr : ∀ cs ∈ css, ∀ c ∈ cs, 0 ≤ c.string ∧ c.string < 6) :
    runBeam css = [] := by
  rw [List.eq_nil_iff_forall_not_mem]
  intro st hmem
  obtain ⟨h1, h2, h3, h4⟩ := runBeam_ok css st hmem
  have hsub : st.used ⊆ [0, 1, 2, 3, 4, 5] := by
    intro x hx
    rw [h1, List.mem_map] at hx
    obtain ⟨p, hp, rfl⟩ := hx
    obtain ⟨cs, hcs, hpcs⟩ := h4 p hp
    obtain ⟨hge, hlt⟩ := hstr cs hcs p hpcs
    have hor : p.string = 0 ∨ p.string = 1 ∨ p.string = 2 ∨ p.string = 3 ∨ p.string = 4
        ∨ p.string = 5 := by omega
    rcases hor with h | h | h | h | h | h <;> simp [h]
  have hlen : st.used.length ≤ 6 := (h2.subperm hsub).length_le
  rw [h1, List.length_map, h3, h7] at hlen
  omega

/-! ### Claim theorems: C6 and C1 -/

/-- Claim C6: for every chord of 7 distinct pitches each having a non-empty
candidate set, the beam empties before completing the assignments and the
Chord Optimizer falls back to returning the first candidate of each
per-pitch candidate set, yielding exactly 7 defined positions (one per
pitch), without deduplicating string indices or enforcing the span
bound. -/
theorem claim_C6 (pitches : List ℤ) (tuning : List ℤ) (last : List (Option Position))
    (h7 : pitches.length = 7) (_hnd : pitches.Nodup)
    (hne : ∀ p ∈ pitches, getCandidates p tuning 22 ≠ []) :
    optimizeChord (pitches.map fun p => getCandidates p tuning 22) last
        = (pitches.map fun p => getCandidates p tuning 22).map List.head?
      ∧ (optimizeChord (pitches.map fun p => getCandidates p tuning 22) last).length = 7
      ∧ ∀ o ∈ optimizeChord (pitches.map fun p => getCandidates p tuning 22) last,
          o.isSome := by
  set css := pitches.map fun p => getCandidates p tuning 22 with hcss
  have hlen : css.length = 7 := by rw [hcss, List.length_map, h7]
  have hstr : ∀ cs ∈ css, ∀ c ∈ cs, 0 ≤ c.string ∧ c.string < 6 := by
    intro cs hcs c hc
    rw [hcss, List.mem_map] at hcs
    obtain ⟨p, -, rfl⟩ := hcs
    exact getCandidates_string_range hc
  have hnil := runBeam_nil_of_length_eq_seven hlen hstr
  have hsome : ∀ o ∈ css.map List.head?, o.isSome := by
    intro o ho
    rw [List.mem_map] at ho
    obtain ⟨cs, hcs, rfl⟩ := ho
    have hcne : cs ≠ [] := by
      rw [hcss, List.mem_map] at hcs
      obtain ⟨p, hp, rfl⟩ := hcs
      exact hne p hp
    cases cs with
    | nil => exact absurd rfl hcne
    | cons a t => simp
  obtain ⟨a, b, t, hshape⟩ : ∃ a b t, css = a :: b :: t := by
    cases hc : css with
    | nil => rw [hc] at hlen; simp at hlen
    | cons a r =>
      cases hr : r with
      | nil => rw [hc, hr] at hlen; simp at hlen
      | cons b t => exact ⟨a, b, t, rfl⟩
  have hmain : optimizeChord css last = (css.map List.head?).filter fun o => o.isSome := by
    rw [hshape] at hnil ⊢
    simp only [optimizeChord]
    rw [hnil]
  have hfilter : (css.map List.head?).filter (fun o => o.isSome) = css.map List.head? :=
    List.filter_eq_self.mpr hsome
  refine ⟨hmain.trans hfilter, ?_, ?_⟩
  · rw [hmain.trans hfilter, List.length_map, hlen]
  · intro o ho
    rw [hmain.trans hfilter] at ho
    exact hsome o ho

/-- Witness for claim C6 at the chord `[40, 41, 42, 43, 44, 45, 46]` in
standard tuning. -/
theorem claim_C6_witness :
    optimizeChord ([(40:ℤ), 41, 42, 43, 44, 45, 46].map fun p =>
          getCandidates p standardNotes 22) []
        = ([(40:ℤ), 41, 42, 43, 44, 45, 46].map fun p =>
            getCandidates p standardNotes 22).map List.head?
      ∧ (optimizeChord ([(40:ℤ), 41, 42, 43, 44, 45, 46].map fun p =>
            getCandidates p standardNotes 22) []).length = 7
      ∧ ∀ o ∈ optimizeChord ([(40:ℤ), 41, 42, 43, 44, 45, 46].map fun p =>
            getCandidates p standardNotes 22) [], o.isSome :=
  claim_C6 [40, 41, 42, 43, 44, 45, 46] standardNotes [] (by decide) (by decide) (by decide)

set_option maxRecDepth 4000

/-- Claim C1 counterexample: for the standard-tuning chord
`[55, 64, 70, 50, 83]` every pitch is reachable and a conflict-free
assignment with non-zero-fret span 4 exists
(`(5,15), (4,19), (2,15), (3,0), (0,19)`), yet the beam-width pruning
(20 states) discards every completable branch, the beam empties, and the
fallback returns positions that use string 0 three times — so the
optimizer does not return 5 pairwise-distinct string indices. -/
theorem claim_C1_counterexample :
    2 ≤ ([(55:ℤ), 64, 70, 50, 83].map fun p => getCandidates p standardNotes 22).length
      ∧ ([(55:ℤ), 64, 70, 50, 83].map fun p => getCandidates p standardNotes 22).length ≤ 6
      ∧ (∀ cs ∈ [(55:ℤ), 64, 70, 50, 83].map fun p => getCandidates p standardNotes 22,
          cs ≠ [])
      ∧ isValidAssignment [⟨5, 15⟩, ⟨4, 19⟩, ⟨2, 15⟩, ⟨3, 0⟩, ⟨0, 19⟩]
          ([(55:ℤ), 64, 70, 50, 83].map fun p => getCandidates p standardNotes 22) = true
      ∧ ¬ ((optimizeChord ([(55:ℤ), 64, 70, 50, 83].map fun p =>
              getCandidates p standardNotes 22) []).map fun o =>
            o.map Position.string).Nodup := by
  decide

/-- Claim C1 (amended): for every chord event of `k` pitches with
`2 ≤ k ≤ 6`, all reachable and admitting a conflict-free span-≤5
assignment, the Chord Optimizer returns exactly `k` positions, and they
sit on `k` pairwise-distinct strings whenever the beam search completes
with a non-empty beam; when beam-width pruning empties the beam, the
degraded fallback still returns `k` positions but may repeat strings. -/
theorem claim_C1_amended (css : List (List Position)) (last : List (Option Position))
    (h2 : 2 ≤ css.length) (_h6 : css.length ≤ 6) (hne : ∀ cs ∈ css, cs ≠ [])
    (_hex : ∃ asg, isValidAssignment asg css = true) :
    (optimizeChord css last).length = css.length
      ∧ (runBeam css ≠ [] →
          ((optimizeChord css last).map fun o => o.map Position.string).Nodup
            ∧ ∀ o ∈ optimizeChord css last, o.isSome) := by
  obtain ⟨a, b, t, rfl⟩ : ∃ a b t, css = a :: b :: t := by
    cases css with
    | nil => simp at h2
    | cons a r =>
      cases r with
      | nil => simp at h2
      | cons b t => exact ⟨a, b, t, rfl⟩
  cases hrb : runBeam (a :: b :: t) with
  | nil =>
    have hsome : ∀ o ∈ (a :: b :: t).map List.head?, o.isSome := by
      intro o ho
      rw [List.mem_map] at ho
      obtain ⟨cs, hcs, rfl⟩ := ho
      have hcne := hne cs hcs
      cases cs with
      | nil => exact absurd rfl hcne
      | cons x xs => simp
    have hmain : optimizeChord (a :: b :: t) last
        = ((a :: b :: t).map List.head?).filter fun o => o.isSome := by
      simp only [optimizeChord]
      rw [hrb]
    refine ⟨?_, fun hne' => absurd rfl hne'⟩
    rw [hmain, List.filter_eq_self.mpr hsome, List.length_map]
  | cons st rest =>
    have hmain : optimizeChord (a :: b :: t) last = st.positions.map some := by
      simp only [optimizeChord]
      rw [hrb]
    have hok := runBeam_ok (a :: b :: t) st (by rw [hrb]; exact List.mem_cons_self _ _)
    obtain ⟨hu, hnd, hlen, -⟩ := hok
    refine ⟨?_, fun _ => ⟨?_, ?_⟩⟩
    · rw [hmain, List.length_map, hlen]
    · rw [hmain, List.map_map]
      have hcomp : (Option.map Position.string ∘ some) = some ∘ Position.string := rfl
      rw [hcomp, ← List.map_map]
      have hnodup : (st.positions.map Position.string).Nodup := hu ▸ hnd
      exact hnodup.map (Option.some_injective _)
    · intro o ho
      rw [hmain, List.mem_map] at ho
      obtain ⟨p, -, rfl⟩ := ho
      rfl

/-- Witness for claim C1 (amended) at the Em7 chord
`[40, 47, 52, 55, 59, 64]` in standard tuning. -/
theorem claim_C1_amended_witness :
    (optimizeChord ([(40:ℤ), 47, 52, 55, 59, 64].map fun p =>
          getCandidates p standardNotes 22) []).length
        = ([(40:ℤ), 47, 52, 55, 59, 64].map fun p => getCandidates p standardNotes 22).length
      ∧ (runBeam ([(40:ℤ), 47, 52, 55, 59, 64].map fun p =>
            getCandidates p standardNotes 22) ≠ [] →
          ((optimizeChord ([(40:ℤ), 47, 52, 55, 59, 64].map fun p =>
                getCandidates p standardNotes 22) []).map fun o =>
              o.map Position.string).Nodup
            ∧ ∀ o ∈ optimizeChord ([(40:ℤ), 47, 52, 55, 59, 64].map fun p =>
                getCandidates p standardNotes 22) [], o.isSome) :=
  claim_C1_amended _ [] (by decide) (by decide) (by decide)
    ⟨[⟨5, 0⟩, ⟨4, 2⟩, ⟨3, 2⟩, ⟨2, 0⟩, ⟨1, 0⟩, ⟨0, 0⟩], by decide⟩

/-- Claim C4: for every integer pitch, every 6-note tuning and every
`maxFret`, `getCandidates` returns exactly the positions `(s, f)` with
`f = p - open[s]` and `0 ≤ f ≤ maxFret`, in ascending string-index order,
and returns the empty list rather than failing when no string qualifies. -/
theorem claim_C4 (p : ℤ) (openNotes : List ℤ) (maxFret : ℤ)
    (_hlen : openNotes.length = 6) :
    (∀ c : Position, c ∈ getCandidates p openNotes maxFret ↔
        ∃ s : ℕ, s < 6 ∧ c.string = (s : ℤ) ∧ c.fret = p - openNotes.getD s 0
          ∧ 0 ≤ c.fret ∧ c.fret ≤ maxFret)
      ∧ (getCandidates p openNotes maxFret).Pairwise (fun a b => a.string < b.string)
      ∧ ((∀ s : ℕ, s < 6 →
            ¬(0 ≤ p - openNotes.getD s 0 ∧ p - openNotes.getD s 0 ≤ maxFret)) →
          getCandidates p openNotes maxFret = []) := by
  refine ⟨?_, ?_, ?_⟩
  · intro c
    constructor
    · exact fun h => mem_getCandidates h
    · rintro ⟨s, hs6, hstr, hfret, h0, hmf⟩
      unfold getCandidates
      rw [List.mem_filterMap]
      refine ⟨s, List.mem_range.mpr hs6, ?_⟩
      show (if 0 ≤ p - openNotes.getD s 0 ∧ p - openNotes.getD s 0 ≤ maxFret
          then some (⟨(s : ℤ), p - openNotes.getD s 0⟩ : Position) else none) = some c
      split_ifs with hcond
      · rw [← hstr, ← hfret]
      · exact absurd ⟨by rw [← hfret]; exact h0, by rw [← hfret]; exact hmf⟩ hcond
  · refine List.Pairwise.filterMap _ ?_ (List.pairwise_lt_range 6)
    intro a b hab x hx y hy
    simp only [Option.mem_def] at hx hy
    split_ifs at hx hy
    rw [Option.some.injEq] at hx hy
    subst hx
    subst hy
    show ((a : ℕ) : ℤ) < ((b : ℕ) : ℤ)
    exact_mod_cast hab
  · intro hnone
    rw [List.eq_nil_iff_forall_not_mem]
    intro c hc
    obtain ⟨s, hs6, hstr, hfret, h0, hmf⟩ := mem_getCandidates hc
    exact hnone s hs6 ⟨by rw [← hfret]; exact h0, by rw [← hfret]; exact hmf⟩

/-- Witness for claim C4 at pitch 40, standard tuning, `maxFret = 22`. -/
theorem claim_C4_witness :
    (⟨5, 0⟩ : Position) ∈ getCandidates 40 standardNotes 22
      ∧ (getCandidates 40 standardNotes 22).Pairwise (fun a b => a.string < b.string) :=
  ⟨((claim_C4 40 standardNotes 22 (by decide)).1 ⟨5, 0⟩).mpr
      ⟨5, by omega, rfl, by decide, by decide, by decide⟩,
    (claim_C4 40 standardNotes 22 (by decide)).2.1⟩

/-- Claim C5 evaluation at the failing input: a single-pitch event whose
pitch (10) is unreachable in standard tuning gets the one-element result
`[undefined]` from the single-note path — the pitch is not omitted, a
junk entry is returned instead (and it propagates into the mapped event).
The chord path, by contrast, does drop the empty set via
`.filter(Boolean)`. -/
theorem claim_C5_eval :
    optimizeChord [[]] [] = [none]
      ∧ fretboardMap [⟨0, 1, [10], none⟩] standardNotes = [⟨0, 1, [none], none⟩]
      ∧ optimizeChord [getCandidates 10 standardNotes 22, getCandidates 40 standardNotes 22] []
          = [some ⟨5, 0⟩] :=
  ⟨rfl, rfl, rfl⟩

/-- Claim C7: the Em7 chord `[40, 47, 52, 55, 59, 64]` in standard tuning
maps to 6 defined positions on 6 pairwise-distinct strings, every fret in
`[0, 22]`, with total chord-model cost no greater than that of the naive
first-candidate-per-pitch assignment. -/
theorem claim_C7 :
    (optimizeChord ([(40:ℤ), 47, 52, 55, 59, 64].map fun p =>
        getCandidates p standardNotes 22) []).length = 6
      ∧ ((optimizeChord ([(40:ℤ), 47, 52, 55, 59, 64].map fun p =>
            getCandidates p standardNotes 22) []).map fun o => o.map Position.string).Nodup
      ∧ (∀ o ∈ optimizeChord ([(40:ℤ), 47, 52, 55, 59, 64].map fun p =>
            getCandidates p standardNotes 22) [], o.isSome)
      ∧ (∀ q ∈ (optimizeChord ([(40:ℤ), 47, 52, 55, 59, 64].map fun p =>
            getCandidates p standardNotes 22) []).filterMap id, 0 ≤ q.fret ∧ q.fret ≤ 22)
      ∧ chordAssignCostQ ((optimizeChord ([(40:ℤ), 47, 52, 55, 59, 64].map fun p =>
            getCandidates p standardNotes 22) []).filterMap id)
        ≤ chordAssignCostQ (([(40:ℤ), 47, 52, 55, 59, 64].map fun p =>
            getCandidates p standardNotes 22).filterMap List.head?) := by
  refine ⟨by decide, by decide, by decide, by decide, ?_⟩
  have hz : chordAssignCost ((optimizeChord ([(40:ℤ), 47, 52, 55, 59, 64].map fun p =>
        getCandidates p standardNotes 22) []).filterMap id)
      ≤ chordAssignCost (([(40:ℤ), 47, 52, 55, 59, 64].map fun p =>
        getCandidates p standardNotes 22).filterMap List.head?) := by decide
  unfold chordAssignCostQ
  exact (div_le_div_iff_of_pos_right (by norm_num)).mpr (by exact_mod_cast hz)

/-- Claim C10 counterexample: an event with an empty pitch set does not
make the core fail fast — it is silently mapped to an event with an empty
position list. -/
theorem claim_C10_counterexample :
    fretboardMap [⟨0, 1, [], none⟩] standardNotes = [⟨0, 1, [], none⟩] := rfl

/-- Claim C10 (amended): malformed input is silently accepted, never
rejected: an empty pitch set maps to an event with empty positions, and a
negative fret bound yields an empty candidate set for every pitch; the
core's functions are total and raise no error. -/
theorem claim_C10_amended :
    fretboardMap [⟨0, 1, [], none⟩] standardNotes = [⟨0, 1, [], none⟩]
      ∧ ∀ (p : ℤ) (openNotes : List ℤ) (mf : ℤ), mf < 0 →
          getCandidates p openNotes mf = [] := by
  refine ⟨rfl, ?_⟩
  intro p openNotes mf hmf
  rw [List.eq_nil_iff_forall_not_mem]
  intro c hc
  obtain ⟨s, -, -, -, h0, hle⟩ := mem_getCandidates hc
  omega

/-- Witness for claim C10 (amended) at `maxFret = -1`. -/
theorem claim_C10_amended_witness :
    fretboardMap [⟨0, 1, [], none⟩] standardNotes = [⟨0, 1, [], none⟩]
      ∧ getCandidates 40 standardNotes (-1) = [] :=
  ⟨claim_C10_amended.1, claim_C10_amended.2 40 standardNotes (-1) (by norm_num)⟩

/-- Claim C9 counterexample: an event carrying the empty-string label is
not passed through unchanged — `ev.chord || null` turns it into `null`. -/
theorem claim_C9_counterexample :
    (fretboardMap [⟨0, 1, [40], some ""⟩] standardNotes).map MappedEvent.chord
      ≠ [some ""] := by
  decide

theorem fretboardMapGo_length (t : List ℤ) :
    ∀ (evs : List NoteEvent) (last : List (Option Position)),
      (fretboardMapGo t evs last).length = evs.length := by
  intro evs
  induction evs with
  | nil => intro last; rfl
  | cons ev rest ih =>
    intro last
    simp only [fretboardMapGo, List.length_cons, ih]

theorem fretboardMapGo_time_duration (t : List ℤ) :
    ∀ (evs : List NoteEvent) (last : List (Option Position)),
      (fretboardMapGo t evs last).map (fun m => (m.time, m.duration))
        = evs.map fun e => (e.time, e.duration) := by
  intro evs
  induction evs with
  | nil => intro last; rfl
  | cons ev rest ih =>
    intro last
    simp only [fretboardMapGo, List.map_cons, ih]

theorem fretboardMapGo_chord (t : List ℤ) :
    ∀ (evs : List NoteEvent) (last : List (Option Position)),
      (fretboardMapGo t evs last).map MappedEvent.chord
        = evs.map fun e => jsOrNull e.chord := by
  intro evs
  induction evs with
  | nil => intro last; rfl
  | cons ev rest ih =>
    intro last
    simp only [fretboardMapGo, List.map_cons, ih]

theorem foldl_pickStep_isSome (g : Position → Option ℤ) :
    ∀ (l : List Position) (acc : Option Position × Option (Option ℤ)),
      acc.1.isSome → ((l.foldl (pickStep g) acc).1).isSome := by
  intro l
  induction l with
  | nil => intro acc h; exact h
  | cons x xs ih =>
    intro acc h
    rw [List.foldl_cons]
    apply ih
    unfold pickStep
    split
    · rfl
    · exact h

theorem optimizeChord_isSome (css : List (List Position)) (last : List (Option Position))
    (h1 : ∀ cs, css = [cs] → cs ≠ []) :
    ∀ o ∈ optimizeChord css last, o.isSome := by
  intro o ho
  rcases css with _ | ⟨cs, _ | ⟨cs2, t⟩⟩
  · simp [optimizeChord] at ho
  · have hcs : cs ≠ [] := h1 cs rfl
    rcases cs with _ | ⟨a, t⟩
    · exact absurd rfl hcs
    · rw [show optimizeChord [a :: t] last = [optimizeSingle (a :: t) last] from rfl,
        List.mem_singleton] at ho
      subst ho
      show (((a :: t).foldl (pickStep (singleCost last)) ((a :: t).head?, none)).1).isSome
      exact foldl_pickStep_isSome _ _ _ rfl
  · cases hrb : runBeam (cs :: cs2 :: t) with
    | cons st rest =>
      simp only [optimizeChord, hrb] at ho
      rw [List.mem_map] at ho
      obtain ⟨p, -, rfl⟩ := ho
      rfl
    | nil =>
      simp only [optimizeChord, hrb] at ho
      exact (List.mem_filter.mp ho).2

theorem fretboardMapGo_all_some (t : List ℤ) :
    ∀ (evs : List NoteEvent) (last : List (Option Position)),
      (∀ ev ∈ evs, ev.notes.length = 1 → ∀ n ∈ ev.notes, getCandidates n t 22 ≠ []) →
      ∀ m ∈ fretboardMapGo t evs last, ∀ o ∈ m.positions, o.isSome := by
  intro evs
  induction evs with
  | nil =>
    intro last _ m hm
    simp [fretboardMapGo] at hm
  | cons ev rest ih =>
    intro last hreach m hm
    have hhead : ∀ o ∈ optimizeChord (ev.notes.map fun n => getCandidates n t 22) last,
        o.isSome := by
      apply optimizeChord_isSome
      intro cs hcs
      rcases hnotes : ev.notes with _ | ⟨n, ns⟩
      · rw [hnotes] at hcs
        exact absurd hcs (by simp)
      · rw [hnotes, List.map_cons] at hcs
        injection hcs with hc1 hc2
        rcases ns with _ | ⟨n2, ns2⟩
        · rw [← hc1]
          exact hreach ev (List.mem_cons_self _ _) (by rw [hnotes]; rfl) n
            (by rw [hnotes]; exact List.mem_singleton_self _)
        · exact absurd hc2 (by simp)
    rcases List.mem_cons.mp hm with rfl | hm
    · intro o ho
      exact hhead o ho
    · exact ih _ (fun e he h1 => hreach e (List.mem_cons_of_mem _ he) h1) m hm

/-- Claim C9 (amended): for every tuning and every input event sequence in
which each single-pitch event's pitch is reachable — the domain on which
the mapper never reaches the `TypeError` thrown at `lp.fret` when a
previous position is `undefined`; outside it `fretboardMap` can crash
(e.g. `[{notes: [10]}, {notes: [40]}]` in standard tuning) — the Sequence
Mapper returns a sequence of exactly the input's length, copying each
event's time and duration; the chord label is passed through
`ev.chord || null` (so a missing or empty-string label becomes `null`,
every other label is unchanged); every returned position entry is defined,
so the threaded state never feeds an `undefined` entry to the movement
cost; and the state threaded into each step is exactly the previous
event's chosen positions, initialized empty. -/
theorem claim_C9_amended (events : List NoteEvent) (tuningNotes : List ℤ)
    (hreach : ∀ ev ∈ events, ev.notes.length = 1 →
      ∀ n ∈ ev.notes, getCandidates n tuningNotes 22 ≠ []) :
    (fretboardMap events tuningNotes).length = events.length
      ∧ (fretboardMap events tuningNotes).map (fun m => (m.time, m.duration))
          = events.map (fun e => (e.time, e.duration))
      ∧ (fretboardMap events tuningNotes).map MappedEvent.chord
          = events.map (fun e => jsOrNull e.chord)
      ∧ (∀ m ∈ fretboardMap events tuningNotes, ∀ o ∈ m.positions, o.isSome)
      ∧ fretboardMap events tuningNotes = fretboardMapGo tuningNotes events []
      ∧ ∀ (ev : NoteEvent) (rest : List NoteEvent) (last : List (Option Position)),
          fretboardMapGo tuningNotes (ev :: rest) last
            = ⟨ev.time, ev.duration,
                optimizeChord (ev.notes.map fun n => getCandidates n tuningNotes 22) last,
                jsOrNull ev.chord⟩
              :: fretboardMapGo tuningNotes rest
                  (optimizeChord (ev.notes.map fun n => getCandidates n tuningNotes 22) last) :=
  ⟨fretboardMapGo_length tuningNotes events [],
    fretboardMapGo_time_duration tuningNotes events [],
    fretboardMapGo_chord tuningNotes events [],
    fretboardMapGo_all_some tuningNotes events [] hreach,
    rfl,
    fun _ _ _ => rfl⟩

/-- Witness for claim C9 (amended) at a two-event single-note sequence in
standard tuning. -/
theorem claim_C9_amended_witness :
    (fretboardMap [⟨0, 1, [40], none⟩, ⟨1, 1, [45], none⟩] standardNotes).length
        = ([⟨0, 1, [40], none⟩, ⟨1, 1, [45], none⟩] : List NoteEvent).length
      ∧ ∀ m ∈ fretboardMap [⟨0, 1, [40], none⟩, ⟨1, 1, [45], none⟩] standardNotes,
          ∀ o ∈ m.positions, o.isSome :=
  ⟨(claim_C9_amended [⟨0, 1, [40], none⟩, ⟨1, 1, [45], none⟩] standardNotes (by decide)).1,
    (claim_C9_amended [⟨0, 1, [40], none⟩, ⟨1, 1, [45], none⟩] standardNotes
      (by decide)).2.2.2.1⟩

theorem jsTruthy_iff (o : Option String) :
    jsTruthy o = true ↔ ∃ s, o = some s ∧ s ≠ "" := by
  cases o with
  | none => simp [jsTruthy]
  | some s => simp [jsTruthy]

theorem renderLinesGo_fuel :
    ∀ (f1 f2 : ℕ) (evs : List MappedEvent), evs.length ≤ f1 → evs.length ≤ f2 →
      renderLinesGo f1 evs = renderLinesGo f2 evs := by
  intro f1
  induction f1 with
  | zero =>
    intro f2 evs h1 _
    have hnil : evs = [] := List.eq_nil_of_length_eq_zero (Nat.le_zero.mp h1)
    subst hnil
    cases f2 <;> rfl
  | succ n ih =>
    intro f2 evs h1 h2
    cases evs with
    | nil => cases f2 <;> rfl
    | cons e rest =>
      cases f2 with
      | zero => simp at h2
      | succ m =>
        show renderBlockLines ((e :: rest).take 8) ++ renderLinesGo n ((e :: rest).drop 8)
            = renderBlockLines ((e :: rest).take 8) ++ renderLinesGo m ((e :: rest).drop 8)
        congr 1
        apply ih
        · rw [List.length_drop]
          simp only [List.length_cons] at h1 ⊢
          omega
        · rw [List.length_drop]
          simp only [List.length_cons] at h2 ⊢
          omega

theorem renderLines_eq_block (evs : List MappedEvent) (h : evs ≠ []) :
    renderLines evs = renderBlockLines (evs.take 8) ++ renderLines (evs.drop 8) := by
  cases evs with
  | nil => exact absurd rfl h
  | cons e rest =>
    show renderBlockLines ((e :: rest).take 8) ++ renderLinesGo rest.length ((e :: rest).drop 8)
        = renderBlockLines ((e :: rest).take 8) ++ renderLines ((e :: rest).drop 8)
    congr 1
    apply renderLinesGo_fuel
    · rw [List.length_drop]
      simp only [List.length_cons]
      omega
    · exact le_refl _

/-- Claim C8: the Tab Renderer chunks the events into consecutive blocks of
up to 8; each block emits a label row (4 spaces, then each label padded to
6 characters, in event order) exactly when some event's label is a
non-empty string, then the 6 string rows `e, B, G, D, A, E` in index
order, each a string letter, a pipe, per-event cells (a dash then the
decimal fret or a dash placeholder, padded with dashes to width 5), and a
closing pipe, then one blank line; the single-event fixture with sole
position `(string 4, fret 3)` renders the digit 3 in the string-4 row and
only dashes in every other row. -/
theorem claim_C8 (evs : List MappedEvent) :
    renderAsciiTab evs = String.intercalate "\n" (renderLines evs)
      ∧ renderLines ([] : List MappedEvent) = []
      ∧ (evs ≠ [] → renderLines evs = renderBlockLines (evs.take 8) ++ renderLines (evs.drop 8))
      ∧ (∀ slice : List MappedEvent,
          renderBlockLines slice
              = (if slice.any (fun e => jsTruthy e.chord) then [labelRow slice] else [])
                  ++ [renderRow slice 0, renderRow slice 1, renderRow slice 2,
                      renderRow slice 3, renderRow slice 4, renderRow slice 5] ++ [""]
            ∧ ((slice.any fun e => jsTruthy e.chord) = true ↔
                ∃ e ∈ slice, ∃ s, e.chord = some s ∧ s ≠ ""))
      ∧ renderAsciiTab [⟨0, 1, [some ⟨4, 3⟩], none⟩]
          = "e|------|\nB|------|\nG|------|\nD|------|\nA|-3----|\nE|------|\n"
      ∧ renderRow [⟨0, 1, [some ⟨4, 3⟩], none⟩] 4 = "A|-3----|"
      ∧ ∀ s ∈ [0, 1, 2, 3, 5],
          renderRow [(⟨0, 1, [some ⟨4, 3⟩], none⟩ : MappedEvent)] s
            = STRING_LABELS.getD s "" ++ "|------|" := by
  refine ⟨rfl, rfl, renderLines_eq_block evs, ?_, by decide, by decide, by decide⟩
  intro slice
  refine ⟨rfl, ?_⟩
  rw [List.any_eq_true]
  constructor
  · rintro ⟨e, he, ht⟩
    obtain ⟨s, hs, hne⟩ := (jsTruthy_iff _).mp ht
    exact ⟨e, he, s, hs, hne⟩
  · rintro ⟨e, he, s, hs, hne⟩
    exact ⟨e, he, (jsTruthy_iff _).mpr ⟨s, hs, hne⟩⟩

/-- Witness for claim C8: the block decomposition applied to the one-event
fixture. -/
theorem claim_C8_witness :
    renderLines [(⟨0, 1, [some ⟨4, 3⟩], none⟩ : MappedEvent)]
      = renderBlockLines ([(⟨0, 1, [some ⟨4, 3⟩], none⟩ : MappedEvent)].take 8)
        ++ renderLines ([(⟨0, 1, [some ⟨4, 3⟩], none⟩ : MappedEvent)].drop 8) :=
  (claim_C8 [⟨0, 1, [some ⟨4, 3⟩], none⟩]).2.2.1 (List.cons_ne_nil _ _)

/-! ### The single-note path -/

theorem foldl_jsMin2_map_some :
    ∀ (t : List ℤ) (a : ℤ), (t.map some).foldl jsMin2 (some a) = some (t.foldl min a) := by
  intro t
  induction t with
  | nil => intro a; rfl
  | cons x xs ih =>
    intro a
    simp only [List.map_cons, List.foldl_cons]
    exact ih (min a x)

theorem jsMinL_map_some (l : List ℤ) (hl : l ≠ []) :
    jsMinL (l.map some) = some (listMinZ l) := by
  cases l with
  | nil => exact absurd rfl hl
  | cons a t =>
    simp only [List.map_cons, jsMinL, listMinZ]
    exact foldl_jsMin2_map_some t a

theorem singleCost_map_some (lps : List Position) (c : Position) :
    singleCost (lps.map some) c = some (scaledSingleCost lps c) := by
  cases lps with
  | nil => rfl
  | cons lp rest =>
    unfold singleCost scaledSingleCost
    dsimp only
    have hlen : 0 < ((lp :: rest).map some).length := by simp
    have hlen2 : 0 < (lp :: rest).length := by simp
    have hmaps : ((lp :: rest).map some).map (moveTerm c)
        = ((lp :: rest).map fun q => |q.fret - c.fret| + |q.string - c.string| * 2).map some := by
      rw [List.map_map, List.map_map]
      rfl
    rw [if_pos hlen, if_pos hlen2, hmaps, jsMinL_map_some _ (by simp)]
    rfl

theorem pickLoop_argmin (f : Position → ℤ) (g : Position → Option ℤ)
    (hg : ∀ c, g c = some (f c)) :
    ∀ (l : List Position) (b : Position),
      ∃ r, l.foldl (pickStep g) ((some b, some (g b)) : Option Position × Option (Option ℤ))
            = (some r, some (g r))
        ∧ (∃ l₁ l₂, b :: l = l₁ ++ r :: l₂ ∧ ∀ c ∈ l₁, f r < f c)
        ∧ ∀ c ∈ b :: l, f r ≤ f c := by
  intro l
  induction l with
  | nil =>
    intro b
    refine ⟨b, rfl, ⟨[], [], rfl, by simp⟩, ?_⟩
    intro c hc
    rw [List.mem_singleton] at hc
    subst hc
    exact le_refl _
  | cons x xs ih =>
    intro b
    rw [List.foldl_cons]
    by_cases hlt : f x < f b
    · have hstep : pickStep g (some b, some (g b)) x = (some x, some (g x)) := by
        unfold pickStep
        rw [hg x, hg b]
        simp [jsLt, hlt]
      rw [hstep]
      obtain ⟨r, heq, ⟨l₁, l₂, hsplit, hgt⟩, hmin⟩ := ih x
      refine ⟨r, heq, ⟨b :: l₁, l₂, by rw [List.cons_append, ← hsplit], ?_⟩, ?_⟩
      · intro c hc
        rcases List.mem_cons.mp hc with rfl | hc
        · exact lt_of_le_of_lt (hmin x (List.mem_cons_self _ _)) hlt
        · exact hgt c hc
      · intro c hc
        rcases List.mem_cons.mp hc with rfl | hc
        · exact le_trans (hmin x (List.mem_cons_self _ _)) (le_of_lt hlt)
        · exact hmin c hc
    · have hstep : pickStep g (some b, some (g b)) x = (some b, some (g b)) := by
        unfold pickStep
        rw [hg x, hg b]
        simp [jsLt, hlt]
      rw [hstep]
      obtain ⟨r, heq, ⟨l₁, l₂, hsplit, hgt⟩, hmin⟩ := ih b
      have hble : f b ≤ f x := le_of_not_lt hlt
      refine ⟨r, heq, ?_, ?_⟩
      · cases l₁ with
        | nil =>
          rw [List.nil_append] at hsplit
          injection hsplit with hb hxs
          refine ⟨[], x :: xs, ?_, by simp⟩
          rw [List.nil_append, hb]
        | cons b' t =>
          rw [List.cons_append] at hsplit
          injection hsplit with hb hxs
          subst hb
          have hrb : f r < f b := hgt b (List.mem_cons_self _ _)
          refine ⟨b :: x :: t, l₂, ?_, ?_⟩
          · rw [List.cons_append, List.cons_append, ← hxs]
          · intro c hc
            rcases List.mem_cons.mp hc with rfl | hc
            · exact hrb
            rcases List.mem_cons.mp hc with rfl | hc
            · exact lt_of_lt_of_le hrb hble
            · exact hgt c (List.mem_cons_of_mem _ hc)
      · intro c hc
        rcases List.mem_cons.mp hc with rfl | hc
        · exact hmin c (List.mem_cons_self _ _)
        rcases List.mem_cons.mp hc with rfl | hc
        · exact le_trans (hmin b (List.mem_cons_self _ _)) hble
        · exact hmin c (List.mem_cons_of_mem _ hc)

theorem optimizeSingle_spec (cs : List Position) (lps : List Position) (h : cs ≠ []) :
    ∃ b, optimizeSingle cs (lps.map some) = some b
      ∧ (∃ l₁ l₂, cs = l₁ ++ b :: l₂
          ∧ ∀ c ∈ l₁, scaledSingleCost lps b < scaledSingleCost lps c)
      ∧ ∀ c ∈ cs, scaledSingleCost lps b ≤ scaledSingleCost lps c := by
  cases cs with
  | nil => exact absurd rfl h
  | cons a t =>
    have hfold : optimizeSingle (a :: t) (lps.map some)
        = ((a :: t).foldl (pickStep (singleCost (lps.map some)))
            ((a :: t).head?, none)).1 := rfl
    have hfirst : pickStep (singleCost (lps.map some)) (some a, none) a
        = (some a, some (singleCost (lps.map some) a)) := by
      unfold pickStep
      rw [singleCost_map_some]
      rfl
    obtain ⟨r, heq, hsplit, hmin⟩ :=
      pickLoop_argmin (scaledSingleCost lps) (singleCost (lps.map some))
        (singleCost_map_some lps) t a
    refine ⟨r, ?_, hsplit, hmin⟩
    rw [hfold, List.foldl_cons]
    show (t.foldl (pickStep (singleCost (lps.map some)))
        (pickStep (singleCost (lps.map some)) (some a, none) a)).1 = some r
    rw [hfirst, heq]

theorem foldl_min_cast :
    ∀ (t : List ℤ) (a : ℤ),
      ((t.foldl min a : ℤ) : ℚ) = (t.map fun z : ℤ => (z : ℚ)).foldl min (a : ℚ) := by
  intro t
  induction t with
  | nil => intro a; rfl
  | cons x xs ih =>
    intro a
    simp only [List.foldl_cons, List.map_cons]
    rw [ih (min a x), Int.cast_min]

theorem listMinZ_cast (l : List ℤ) :
    ((listMinZ l : ℤ) : ℚ) = qListMin (l.map fun z : ℤ => (z : ℚ)) := by
  cases l with
  | nil => simp [listMinZ, qListMin]
  | cons a t =>
    show ((t.foldl min a : ℤ) : ℚ) = (t.map fun z : ℤ => (z : ℚ)).foldl min (a : ℚ)
    exact foldl_min_cast t a

theorem scaledSingleCost_cast (lps : List Position) (c : Position) :
    (scaledSingleCost lps c : ℚ) = 20 * specSingleCostQ lps c := by
  unfold scaledSingleCost specSingleCostQ
  cases lps with
  | nil =>
    simp only [List.length_nil, lt_irrefl, if_false, reduceIte]
    split_ifs <;> push_cast <;> ring
  | cons lp rest =>
    dsimp only
    rw [if_pos (by simp : 0 < (lp :: rest).length),
      if_neg (by simp : ¬(lp :: rest : List Position) = [])]
    have hterm : ((lp :: rest).map fun q =>
          (((|q.fret - c.fret| + |q.string - c.string| * 2 : ℤ)) : ℚ))
        = (lp :: rest).map fun q =>
            |(q.fret : ℚ) - (c.fret : ℚ)| + 2 * |(q.string : ℚ) - (c.string : ℚ)| := by
      apply List.map_congr_left
      intro q _
      push_cast
      ring
    have hmin : ((listMinZ ((lp :: rest).map fun q =>
          |q.fret - c.fret| + |q.string - c.string| * 2) : ℤ) : ℚ)
        = qListMin ((lp :: rest).map fun q =>
            |(q.fret : ℚ) - (c.fret : ℚ)| + 2 * |(q.string : ℚ) - (c.string : ℚ)|) := by
      rw [listMinZ_cast, List.map_map]
      rw [← hterm]
      rfl
    split_ifs with hf
    · push_cast
      rw [hmin]
      ring
    · push_cast
      rw [hmin]
      ring

/-- Claim C3: for every single-pitch event with a non-empty candidate set
and defined prior positions, the result is the single minimum-cost
candidate under the cost `fret * 0.1`, plus (when prior positions exist)
`0.5 * min over prior positions of (|Δfret| + 2 * |Δstring|)`, minus `0.3`
for an open string; ties keep the first candidate in generator order; and
pitch 40 in standard tuning with no prior positions maps to string 5,
fret 0. -/
theorem claim_C3 (cs : List Position) (lps : List Position) (h : cs ≠ []) :
    (∃ b, optimizeChord [cs] (lps.map some) = [some b]
        ∧ b ∈ cs
        ∧ (∀ c ∈ cs, specSingleCostQ lps b ≤ specSingleCostQ lps c)
        ∧ ∃ l₁ l₂, cs = l₁ ++ b :: l₂
            ∧ ∀ c ∈ l₁, specSingleCostQ lps b < specSingleCostQ lps c)
      ∧ optimizeChord [getCandidates 40 standardNotes 22] [] = [some ⟨5, 0⟩] := by
  refine ⟨?_, rfl⟩
  obtain ⟨b, heq, ⟨l₁, l₂, hsplit, hgt⟩, hmin⟩ := optimizeSingle_spec cs lps h
  have hle : ∀ x y : Position, scaledSingleCost lps x ≤ scaledSingleCost lps y →
      specSingleCostQ lps x ≤ specSingleCostQ lps y := by
    intro x y hxy
    have hcast : ((scaledSingleCost lps x : ℤ) : ℚ) ≤ ((scaledSingleCost lps y : ℤ) : ℚ) :=
      Int.cast_le.mpr hxy
    rw [scaledSingleCost_cast, scaledSingleCost_cast] at hcast
    exact le_of_mul_le_mul_left hcast (by norm_num)
  have hlt : ∀ x y : Position, scaledSingleCost lps x < scaledSingleCost lps y →
      specSingleCostQ lps x < specSingleCostQ lps y := by
    intro x y hxy
    have hcast : ((scaledSingleCost lps x : ℤ) : ℚ) < ((scaledSingleCost lps y : ℤ) : ℚ) :=
      Int.cast_lt.mpr hxy
    rw [scaledSingleCost_cast, scaledSingleCost_cast] at hcast
    exact lt_of_mul_lt_mul_left hcast (by norm_num)
  refine ⟨b, ?_, ?_, fun c hc => hle b c (hmin c hc), l₁, l₂, hsplit,
    fun c hc => hlt b c (hgt c hc)⟩
  · show [optimizeSingle cs (lps.map some)] = [some b]
    rw [heq]
  · rw [hsplit]
    exact List.mem_append_right _ (List.mem_cons_self _ _)

/-- Witness for claim C3 at pitch 40, standard tuning, no prior
positions. -/
theorem claim_C3_witness :
    (∃ b, optimizeChord [getCandidates 40 standardNotes 22] (([] : List Position).map some)
          = [some b]
        ∧ b ∈ getCandidates 40 standardNotes 22
        ∧ (∀ c ∈ getCandidates 40 standardNotes 22,
            specSingleCostQ [] b ≤ specSingleCostQ [] c)
        ∧ ∃ l₁ l₂, getCandidates 40 standardNotes 22 = l₁ ++ b :: l₂
            ∧ ∀ c ∈ l₁, specSingleCostQ [] b < specSingleCostQ [] c)
      ∧ optimizeChord [getCandidates 40 standardNotes 22] [] = [some ⟨5, 0⟩] :=
  claim_C3 (getCandidates 40 standardNotes 22) [] (by decide)

/-! ### The chord path as the spec describes it -/

theorem stepSpan_eq_chordSpan (st : BeamState) (c : Position) :
    stepSpan st c = chordSpan (st.positions ++ [c]) := by
  unfold stepSpan chordSpan
  rw [List.map_append]
  rfl

theorem costQ_mono {a b : BeamState} (h : a.cost ≤ b.cost) : a.costQ ≤ b.costQ := by
  unfold BeamState.costQ
  exact (div_le_div_iff_of_pos_right (by norm_num)).mpr (Int.cast_le.mpr h)

theorem foldl_stepBeam_sorted :
    ∀ (l : List (List Position)) (beam : List BeamState), l ≠ [] →
      (l.foldl stepBeam beam).Pairwise fun a b => a.cost ≤ b.cost := by
  intro l
  induction l with
  | nil => intro beam h; exact absurd rfl h
  | cons x xs ih =>
    intro beam _
    rw [List.foldl_cons]
    rcases xs with _ | ⟨y, ys⟩
    · simp only [List.foldl_nil]
      exact stepBeam_sorted _ _
    · exact ih (stepBeam beam x) (List.cons_ne_nil _ _)

/-- Claim C2: for every multi-pitch event the Chord Optimizer folds the
beam over the candidate sets in pitch-list order; a state is expanded only
with candidates whose string is unused and a branch is discarded exactly
when its non-zero-fret span exceeds 5; each expansion adds
`fret * 0.05 + span * 0.3`, minus `0.2` for an open string; after each
pitch at most the 20 lowest-cost states are kept, sorted by ascending
total cost; and when the final beam is non-empty the positions of its
lowest-cost state are returned. -/
theorem claim_C2 (css : List (List Position)) (last : List (Option Position))
    (h2 : 2 ≤ css.length) :
    (optimizeChord css last
        = match runBeam css with
          | st :: _ => st.positions.map some
          | [] => (css.map List.head?).filter fun o => o.isSome)
      ∧ runBeam css = css.foldl stepBeam initBeam
      ∧ (∀ (st : BeamState) (c : Position),
          expandState st c = none ↔ c.string ∈ st.used ∨ 5 < chordSpan (st.positions ++ [c]))
      ∧ (∀ (st : BeamState) (c : Position) (st' : BeamState), expandState st c = some st' →
          st'.positions = st.positions ++ [c]
            ∧ st'.used = st.used ++ [c.string]
            ∧ chordSpan st'.positions ≤ 5
            ∧ st'.costQ = st.costQ + (c.fret : ℚ) * (5/100)
                + (chordSpan (st.positions ++ [c]) : ℚ) * (3/10)
                - (if c.fret = 0 then 2/10 else 0))
      ∧ (∀ (beam : List BeamState) (cands : List Position),
          (stepBeam beam cands).length ≤ 20
            ∧ (stepBeam beam cands).Pairwise (fun a b => a.costQ ≤ b.costQ)
            ∧ ∃ dropped,
                (stepBeam beam cands ++ dropped).Perm
                    (beam.flatMap fun st => cands.filterMap (expandState st))
                  ∧ ∀ a ∈ stepBeam beam cands, ∀ b ∈ dropped, a.costQ ≤ b.costQ)
      ∧ ∀ (st : BeamState) (l : List BeamState), runBeam css = st :: l →
          optimizeChord css last = st.positions.map some
            ∧ ∀ st' ∈ runBeam css, st.costQ ≤ st'.costQ := by
  obtain ⟨a, b, t, rfl⟩ : ∃ a b t, css = a :: b :: t := by
    cases css with
    | nil => simp at h2
    | cons a r =>
      cases r with
      | nil => simp at h2
      | cons b t => exact ⟨a, b, t, rfl⟩
  refine ⟨?_, rfl, ?_, ?_, ?_, ?_⟩
  · rcases hrb : runBeam (a :: b :: t) with _ | ⟨st, rest⟩ <;>
      simp only [optimizeChord, hrb]
  · intro st c
    rw [expandState_none, stepSpan_eq_chordSpan]
  · intro st c st' h
    obtain ⟨-, hpos, hused, hsp, hcost⟩ := expandState_some h
    rw [stepSpan_eq_chordSpan] at hsp hcost
    refine ⟨hpos, hused, ?_, ?_⟩
    · rw [hpos]
      exact hsp
    · unfold BeamState.costQ
      rw [hcost]
      split_ifs with hf
      · push_cast
        ring
      · push_cast
        ring
  · intro beam cands
    refine ⟨stepBeam_length_le _ _, (stepBeam_sorted _ _).imp (fun h => costQ_mono h), ?_⟩
    refine ⟨(sortByCost (beam.flatMap fun st => cands.filterMap (expandState st))).drop 20,
      ?_, ?_⟩
    · show (((sortByCost (beam.flatMap fun st => cands.filterMap (expandState st))).take 20)
          ++ ((sortByCost (beam.flatMap fun st => cands.filterMap (expandState st))).drop 20)).Perm
          (beam.flatMap fun st => cands.filterMap (expandState st))
      rw [List.take_append_drop]
      exact sortByCost_perm _
    · have hp := sortByCost_sorted (beam.flatMap fun st => cands.filterMap (expandState st))
      rw [← List.take_append_drop 20
        (sortByCost (beam.flatMap fun st => cands.filterMap (expandState st))),
        List.pairwise_append] at hp
      intro x hx y hy
      exact costQ_mono (hp.2.2 x hx y hy)
  · intro st l hrb
    have hsorted := foldl_stepBeam_sorted (a :: b :: t) initBeam (List.cons_ne_nil _ _)
    constructor
    · simp only [optimizeChord, hrb]
    · have hsorted2 : (st :: l).Pairwise fun x y => x.cost ≤ y.cost := by
        rw [← hrb]
        exact hsorted
      intro st' hmem
      rw [hrb] at hmem
      rcases List.mem_cons.mp hmem with rfl | hmem
      · exact le_refl _
      · exact costQ_mono (List.rel_of_pairwise_cons hsorted2 hmem)

/-- Witness for claim C2 at the Em7 chord `[40, 47, 52, 55, 59, 64]` in
standard tuning. -/
theorem claim_C2_witness :
    optimizeChord ([(40:ℤ), 47, 52, 55, 59, 64].map fun p =>
        getCandidates p standardNotes 22) []
      = match runBeam ([(40:ℤ), 47, 52, 55, 59, 64].map fun p =>
            getCandidates p standardNotes 22) with
        | st :: _ => st.positions.map some
        | [] => (([(40:ℤ), 47, 52, 55, 59, 64].map fun p =>
            getCandidates p standardNotes 22).map List.head?).filter fun o => o.isSome :=
  (claim_C2 ([(40:ℤ), 47, 52, 55, 59, 64].map fun p => getCandidates p standardNotes 22) []
    (by decide)).1
